import Mathlib

/-!
Verification of the core logic of `photo_automation.py`.

The repository automates batch editing and HDR merging of photos.  Its
algorithmic core consists of

* `get_image_files`   : directory scan + extension filter + sort,
* `identify_bracketed_sets` : sort + fixed-size consecutive grouping,
* the batch loop of `batch_edit_photos` : `range(0, N, 10)` slicing,
* the success counters of `batch_edit_photos` / `merge_hdr_photos`.

Python strings (file paths) are modelled as `List Char`; Python's string
comparison is lexicographic on code points, modelled by `strLe`.  The
filesystem (results of `glob` / `os.walk` / `os.path.exists`) and the
outcome of each external Photoshop invocation are modelled as explicit
input parameters, since they are environment oracles, not repository code.
-/

/-- File paths are modelled as lists of characters (a Python `str`). -/
abbrev FPath := List Char

/-- Python string comparison `a <= b`: lexicographic on code points. -/
def strLe : FPath → FPath → Bool
  | [], _ => true
  | _ :: _, [] => false
  | a :: as, b :: bs => if a < b then true else if a = b then strLe as bs else false

/-- Insertion of a path into an already sorted list, keeping it sorted. -/
def insertSorted (x : FPath) : List FPath → List FPath
  | [] => [x]
  | y :: ys => if strLe x y then x :: y :: ys else y :: insertSorted x ys

/-- Model of Python `sorted(l)` / `l.sort()` output: the (unique) sorted
permutation of `l` under `strLe`.  Since `strLe` is a total order with
antisymmetry, every correct sort of `l` -- in particular Python's stable
Timsort -- produces exactly this list. -/
def pySort (l : List FPath) : List FPath := l.foldr insertSorted []

/-- Sortedness of a list of paths under Python string comparison. -/
def SortedLe (l : List FPath) : Prop := l.Pairwise (fun a b => strLe a b = true)

/-- Python `s.lower()`, restricted to the ASCII mapping used by the
supported-extension comparisons. -/
def strLower (s : FPath) : FPath := s.map Char.toLower

/-- Python `s.upper()`, restricted to the ASCII mapping used by the
supported-extension patterns. -/
def strUpper (s : FPath) : FPath := s.map Char.toUpper

/-- Python `s.endswith(suffix)`. -/
def endswith (s suffix : FPath) : Bool :=
  suffix == List.drop (s.length - suffix.length) s

/-- Model of posix `os.path.join(a, b)`: `b` if `b` is absolute, otherwise
`a` and `b` joined with a single separator. -/
def pathJoin (a b : FPath) : FPath :=
  if b.head? = some '/' then b
  else if a = [] then b
  else if a.getLast? = some '/' then a ++ b
  else a ++ '/' :: b

/-- Model of posix `os.path.basename(p)`: everything after the last slash. -/
def basename (p : FPath) : FPath :=
  (p.reverse.takeWhile (fun c => c != '/')).reverse

/-- Model of `os.path.splitext(name)[0]` for a `name` containing no
separator (the program only applies it to `os.path.basename` results):
everything before the last dot, unless all characters before that dot are
themselves dots (then the name has no extension and is returned whole). -/
def splitextBase (name : FPath) : FPath :=
  match name.reverse.findIdx? (fun c => c == '.') with
  | none => name
  | some j =>
    let i := name.length - 1 - j
    if (name.take i).all (fun c => c == '.') then name else name.take i

/-- The constant `SUPPORTED_IMAGE_FORMATS` of `photo_automation.py`. -/
def SUPPORTED_IMAGE_FORMATS : List FPath :=
  [".jpg".data, ".jpeg".data, ".tif".data, ".tiff".data,
   ".raw".data, ".cr2".data, ".nef".data, ".arw".data]

/-- Match of a directory entry `name` against the glob pattern `*{ext}`
used by the non-recursive branch of `get_image_files`: the name must end
with `ext`, and glob wildcards do not match a leading dot (hidden files). -/
def globMatch (name ext : FPath) : Bool :=
  match name with
  | [] => false
  | c :: _ => c != '.' && endswith name ext

/-- A directory's scanned state, as seen by `get_image_files`.  `entries`
is the list of names of the root directory's direct children in scan
order (consumed by `glob` in the non-recursive branch); `walk` is the
`os.walk` output in walk order, each element pairing a directory path
with the file names inside it (consumed by the recursive branch). -/
structure DirListing where
  entries : List FPath
  walk : List (FPath × List FPath)

/-- The multiset of `(root, filename)` pairs produced by a walk; used to
state that two walks enumerate the same directory contents. -/
def walkPairs (walk : List (FPath × List FPath)) : List (FPath × FPath) :=
  walk.flatMap (fun rf => rf.2.map (fun f => (rf.1, f)))

/-- `get_image_files(directory, recursive)` of `photo_automation.py`.
The filesystem scan results are passed in as `listing`.  Recursive mode
keeps a walked file iff its lower-cased name ends with a supported
extension; non-recursive mode globs `*{ext}` and `*{EXT}` over the direct
children for each supported extension.  Both branches end with
`sorted(image_files)`. -/
def get_image_files (listing : DirListing) (directory : FPath) (recursive : Bool) :
    List FPath :=
  if recursive then
    pySort (listing.walk.flatMap (fun rf =>
      (rf.2.filter (fun file =>
        SUPPORTED_IMAGE_FORMATS.any (fun ext => endswith (strLower file) ext))).map
        (fun file => pathJoin rf.1 file)))
  else
    pySort (SUPPORTED_IMAGE_FORMATS.flatMap (fun ext =>
      (listing.entries.filter (fun e => globMatch e ext)).map
        (fun e => pathJoin directory e) ++
      (listing.entries.filter (fun e => globMatch e (strUpper ext))).map
        (fun e => pathJoin directory e)))

/-- The loop of `identify_bracketed_sets` (lines 150-161): walk the sorted
files, appending each to `current_set`; when the set reaches
`bracket_count` members, or the last file is reached, retain the set iff
it has at least 2 members and start a new one. -/
def bracketLoop (bracket_count : Nat) (current_set : List FPath) :
    List FPath → List (List FPath)
  | [] => []
  | [file] =>
    let cur := current_set ++ [file]
    if 2 ≤ cur.length then [cur] else []
  | file :: next :: rest =>
    let cur := current_set ++ [file]
    if cur.length = bracket_count then
      (if 2 ≤ cur.length then [cur] else []) ++ bracketLoop bracket_count [] (next :: rest)
    else
      bracketLoop bracket_count cur (next :: rest)

/-- `identify_bracketed_sets(image_files, bracket_count)` of
`photo_automation.py` (default `bracket_count` is 3).  `bracket_count` is
modelled as a `Nat`; the value 0 also covers Python's non-positive ints,
for which the `len(current_set) == bracket_count` test never fires. -/
def identify_bracketed_sets (image_files : List FPath) (bracket_count : Nat) :
    List (List FPath) :=
  bracketLoop bracket_count [] (pySort image_files)

/-- `identify_bracketed_sets` including its frame effect: the function
sorts its argument in place (`image_files.sort()`), so the call mutates
the caller's list.  The first component is the caller's list after the
call returns; the second is the returned list of sets. -/
def identify_bracketed_setsState (image_files : List FPath) (bracket_count : Nat) :
    List FPath × List (List FPath) :=
  (pySort image_files, bracketLoop bracket_count [] (pySort image_files))

/-- Retaining rule of the grouping loop: keep a closed group iff it has at
least 2 members. -/
def retainIf2 (g : List FPath) : List (List FPath) :=
  if 2 ≤ g.length then [g] else []

/-- Characterization of the grouping loop as consecutive chunks: cut the
list into consecutive `B`-sized chunks (one chunk of everything when
`B = 0`), retaining each chunk iff it has at least 2 members. -/
def chunkRetain (B : Nat) (l : List FPath) : List (List FPath) :=
  if _h : B = 0 ∨ l.length ≤ B then retainIf2 l
  else retainIf2 (l.take B) ++ chunkRetain B (l.drop B)
termination_by l.length
decreasing_by
  push_neg at _h
  simp only [List.length_drop]
  omega

/-- Modelled from the spec's words for Bracket Grouping (claim C1):
"groups of size B are formed consecutively; any final remainder group is
retained iff its size ≥ 2, else discarded".  The spec assumes `B ≥ 2`;
the `B = 0` branch only makes the recursion well-founded. -/
def specGrouping (B : Nat) (l : List FPath) : List (List FPath) :=
  if _h : B = 0 then []
  else if _h2 : l.length ≤ B then (if 2 ≤ l.length then [l] else [])
  else l.take B :: specGrouping B (l.drop B)
termination_by l.length
decreasing_by
  simp only [List.length_drop]
  omega

/-- Model of Python `range(start, stop, step)` for `step ≥ 1`, via its
closed form: the `k`-th element is `start + step * k` and the length is
`⌈(stop - start) / step⌉`. -/
def pyRange (start stop step : Nat) : List Nat :=
  (List.range ((stop - start + (step - 1)) / step)).map (fun k => start + step * k)

/-- The hard-coded `batch_size = 10` of `batch_edit_photos` (line 312). -/
def batch_size : Nat := 10

/-- The sequence of `batch_files = input_files[i:i+batch_size]` slices
submitted by the loop of `batch_edit_photos`, in loop order. -/
def batchSlices (input_files : List FPath) : List (List FPath) :=
  (pyRange 0 input_files.length batch_size).map
    (fun i => (input_files.drop i).take batch_size)

/-- The outcome of `run_photoshop_script`: it returns True iff the script
file is valid, no exception was raised, and the spawned process exited 0.
The environment is abstracted as the validity flag and the process exit
code (`none` models a raised exception). -/
def run_photoshop_script_ok (script_valid : Bool) (exit_code : Option Int) : Bool :=
  script_valid &&
    match exit_code with
    | some c => c == 0
    | none => false

/-- `batch_edit_photos` of `photo_automation.py`, reduced to its counter
behaviour.  The environment is abstracted: `exit_code i` is the exit code
of the invocation for the batch starting at index `i` (`none` for an
exception) and `fs_exists` is `os.path.exists` after that invocation.
For each batch whose invocation returns True, every file whose expected
output `output_dir/basename(file)` exists adds 1 to `success_count`. -/
def batch_edit_photos (output_dir : FPath) (input_files : List FPath)
    (script_valid : Bool) (exit_code : Nat → Option Int) (fs_exists : FPath → Bool) :
    Nat × Nat :=
  let total_count := input_files.length
  let success_count := ((pyRange 0 total_count batch_size).map (fun i =>
    let batch_files := (input_files.drop i).take batch_size
    if run_photoshop_script_ok script_valid (exit_code i) then
      (batch_files.filter (fun file =>
        fs_exists (pathJoin output_dir (basename file)))).length
    else 0)).sum
  (success_count, total_count)

/-- The expected HDR output file of a bracketed set:
`output_dir/{splitext(basename(set[0]))[0]}_HDR.tif`.  The program only
forms it for retained (hence nonempty) sets; `headI` returns `[]` on an
empty set where Python `set[0]` would raise. -/
def hdrOutputFile (output_dir : FPath) (bracketed_set : List FPath) : FPath :=
  pathJoin output_dir (splitextBase (basename bracketed_set.headI) ++ "_HDR.tif".data)

/-- `merge_hdr_photos` of `photo_automation.py`, reduced to its counter
behaviour, with the environment abstracted as in `batch_edit_photos`
(`exit_code i` is the exit code of the invocation for set number `i`).
A set adds 1 to `success_count` iff its invocation returns True and its
expected output file exists afterwards. -/
def merge_hdr_photos (output_dir : FPath) (bracketed_sets : List (List FPath))
    (script_valid : Bool) (exit_code : Nat → Option Int) (fs_exists : FPath → Bool) :
    Nat × Nat :=
  let total_count := bracketed_sets.length
  let success_count := (bracketed_sets.enum.map (fun p =>
    if run_photoshop_script_ok script_valid (exit_code p.1) &&
        fs_exists (hdrOutputFile output_dir p.2) then 1 else 0)).sum
  (success_count, total_count)

theorem strLe_total (a b : FPath) : strLe a b = true ∨ strLe b a = true := by
  induction a generalizing b with
  | nil => left; rfl
  | cons x xs ih =>
    cases b with
    | nil => right; rfl
    | cons y ys =>
      rcases lt_trichotomy x y with h | h | h
      · left; simp [strLe, h]
      · subst h
        rcases ih ys with h2 | h2
        · left; simp [strLe, h2, lt_irrefl]
        · right; simp [strLe, h2, lt_irrefl]
      · right; simp [strLe, h]

theorem strLe_trans {a b c : FPath} (h1 : strLe a b = true) (h2 : strLe b c = true) :
    strLe a c = true := by
  induction a generalizing b c with
  | nil => rfl
  | cons x xs ih =>
    cases b with
    | nil => simp [strLe] at h1
    | cons y ys =>
      cases c with
      | nil => simp [strLe] at h2
      | cons z zs =>
        simp only [strLe] at h1 h2 ⊢
        by_cases hxy : x < y
        · by_cases hyz : y < z
          · simp [lt_trans hxy hyz]
          · simp [hyz] at h2
            obtain ⟨hyz', _⟩ := h2
            subst hyz'
            simp [hxy]
        · simp [hxy] at h1
          obtain ⟨hxy', h1'⟩ := h1
          subst hxy'
          by_cases hyz : x < z
          · simp [hyz]
          · simp [hyz] at h2 ⊢
            obtain ⟨hyz', h2'⟩ := h2
            subst hyz'
            exact ⟨rfl, ih h1' h2'⟩

theorem strLe_antisymm {a b : FPath} (h1 : strLe a b = true) (h2 : strLe b a = true) :
    a = b := by
  induction a generalizing b with
  | nil =>
    cases b with
    | nil => rfl
    | cons y ys => simp [strLe] at h2
  | cons x xs ih =>
    cases b with
    | nil => simp [strLe] at h1
    | cons y ys =>
      simp only [strLe] at h1 h2
      by_cases hxy : x < y
      · simp [hxy, asymm hxy, (ne_of_lt hxy).symm] at h2
      · simp [hxy] at h1
        obtain ⟨hxy', h1'⟩ := h1
        subst hxy'
        simp [lt_irrefl] at h2
        rw [ih h1' h2]

theorem insertSorted_perm (x : FPath) (l : List FPath) :
    (insertSorted x l).Perm (x :: l) := by
  induction l with
  | nil => exact List.Perm.refl _
  | cons y ys ih =>
    by_cases hxy : strLe x y = true
    · simp [insertSorted, hxy]
    · simp only [insertSorted, hxy, Bool.false_eq_true, if_false]
      exact (ih.cons y).trans (List.Perm.swap x y ys)

theorem mem_insertSorted {a x : FPath} {l : List FPath} :
    a ∈ insertSorted x l ↔ a = x ∨ a ∈ l := by
  rw [(insertSorted_perm x l).mem_iff, List.mem_cons]

theorem insertSorted_sorted {x : FPath} {l : List FPath} (h : SortedLe l) :
    SortedLe (insertSorted x l) := by
  induction l with
  | nil => simp [insertSorted, SortedLe]
  | cons y ys ih =>
    rw [SortedLe, List.pairwise_cons] at h
    obtain ⟨hy, hys⟩ := h
    by_cases hxy : strLe x y = true
    · simp only [insertSorted, hxy, if_true]
      rw [SortedLe, List.pairwise_cons]
      refine ⟨?_, ?_⟩
      · intro b hb
        rcases List.mem_cons.mp hb with hb | hb
        · exact hb ▸ hxy
        · exact strLe_trans hxy (hy b hb)
      · rw [SortedLe, List.pairwise_cons] at *
        exact ⟨hy, hys⟩
    · have hyx : strLe y x = true := by
        rcases strLe_total x y with h | h
        · exact absurd h hxy
        · exact h
      simp only [insertSorted, hxy, Bool.false_eq_true, if_false]
      rw [SortedLe, List.pairwise_cons]
      refine ⟨?_, ih hys⟩
      intro b hb
      rcases mem_insertSorted.mp hb with hb | hb
      · exact hb ▸ hyx
      · exact hy b hb

theorem pySort_perm (l : List FPath) : (pySort l).Perm l := by
  induction l with
  | nil => exact List.Perm.refl _
  | cons x xs ih => exact (insertSorted_perm x (pySort xs)).trans (ih.cons x)

theorem pySort_sorted (l : List FPath) : SortedLe (pySort l) := by
  induction l with
  | nil => simp [pySort, SortedLe]
  | cons x xs ih => exact insertSorted_sorted ih

theorem pySort_length (l : List FPath) : (pySort l).length = l.length :=
  (pySort_perm l).length_eq

theorem sortedLe_eq_of_perm {l₁ l₂ : List FPath} (hp : l₁.Perm l₂)
    (h₁ : SortedLe l₁) (h₂ : SortedLe l₂) : l₁ = l₂ := by
  haveI : IsAntisymm FPath (fun a b => strLe a b = true) :=
    ⟨fun a b => strLe_antisymm⟩
  exact List.eq_of_perm_of_sorted hp h₁ h₂

theorem pySort_eq_of_perm {l₁ l₂ : List FPath} (hp : l₁.Perm l₂) :
    pySort l₁ = pySort l₂ :=
  sortedLe_eq_of_perm ((pySort_perm l₁).trans (hp.trans (pySort_perm l₂).symm))
    (pySort_sorted l₁) (pySort_sorted l₂)

theorem bracketLoop_eq_chunkRetain (B : Nat) :
    ∀ (l cur : List FPath), l ≠ [] → (B = 0 ∨ cur.length < B) →
    bracketLoop B cur l = chunkRetain B (cur ++ l)
  | [], _, hne, _ => absurd rfl hne
  | [x], cur, _, hcur => by
    have hcond : B = 0 ∨ (cur ++ [x]).length ≤ B := by
      rcases hcur with h | h
      · exact Or.inl h
      · right; simp; omega
    rw [chunkRetain, dif_pos hcond]
    simp [bracketLoop, retainIf2]
  | x :: y :: rest, cur, _, hcur => by
    have hassoc : cur ++ x :: y :: rest = (cur ++ [x]) ++ (y :: rest) := by simp
    by_cases hB : (cur ++ [x]).length = B
    · have hlen1 : cur.length + 1 = B := by simpa using hB
      have hBpos : 0 < B := by omega
      have ih := bracketLoop_eq_chunkRetain B (y :: rest) [] (by simp) (Or.inr hBpos)
      simp only [List.nil_append] at ih
      have hlen : ¬(B = 0 ∨ (cur ++ x :: y :: rest).length ≤ B) := by
        push_neg
        refine ⟨by omega, ?_⟩
        simp only [List.length_append, List.length_cons]
        omega
      rw [chunkRetain, dif_neg hlen]
      simp only [bracketLoop, hB, if_true]
      rw [ih]
      rw [hassoc, List.take_left' hB, List.drop_left' hB]
      simp only [retainIf2, hB]
    · have hcur' : B = 0 ∨ (cur ++ [x]).length < B := by
        rcases hcur with h | h
        · exact Or.inl h
        · right
          simp only [List.length_append, List.length_cons, List.length_nil]
          simp only [List.length_append, List.length_cons, List.length_nil] at hB
          omega
      have ih := bracketLoop_eq_chunkRetain B (y :: rest) (cur ++ [x]) (by simp) hcur'
      simp only [bracketLoop, hB, if_false]
      rw [ih, hassoc]

theorem identify_eq_chunkRetain (files : List FPath) (B : Nat) :
    identify_bracketed_sets files B = chunkRetain B (pySort files) := by
  rw [identify_bracketed_sets]
  cases hl : pySort files with
  | nil =>
    rw [chunkRetain]
    simp [bracketLoop, retainIf2]
  | cons a l =>
    have := bracketLoop_eq_chunkRetain B (a :: l) [] (by simp)
      (B.eq_zero_or_pos.imp id id)
    simpa using this

theorem retainIf2_of_lt {g : List FPath} (h : g.length < 2) : retainIf2 g = [] := by
  rw [retainIf2, if_neg (by omega)]

theorem retainIf2_of_le {g : List FPath} (h : 2 ≤ g.length) : retainIf2 g = [g] := by
  rw [retainIf2, if_pos h]

theorem mem_retainIf2 {g h : List FPath} : g ∈ retainIf2 h ↔ g = h ∧ 2 ≤ h.length := by
  constructor
  · intro hg
    by_cases h2 : 2 ≤ h.length
    · rw [retainIf2_of_le h2] at hg
      exact ⟨List.mem_singleton.mp hg, h2⟩
    · rw [retainIf2_of_lt (by omega)] at hg
      exact absurd hg (List.not_mem_nil g)
  · rintro ⟨rfl, h2⟩
    rw [retainIf2_of_le h2]
    exact List.mem_singleton.mpr rfl

theorem chunkRetain_small {B : Nat} {l : List FPath} (h : l.length ≤ 1) :
    chunkRetain B l = [] := by
  have hcond : B = 0 ∨ l.length ≤ B := by
    rcases Nat.eq_zero_or_pos B with h0 | h0
    · exact Or.inl h0
    · exact Or.inr (by omega)
  rw [chunkRetain, dif_pos hcond]
  exact retainIf2_of_lt (by omega)

theorem chunkRetain_one (l : List FPath) : chunkRetain 1 l = [] := by
  suffices h : ∀ n (l : List FPath), l.length ≤ n → chunkRetain 1 l = [] from
    h l.length l le_rfl
  intro n
  induction n with
  | zero =>
    intro l h
    exact chunkRetain_small (by omega)
  | succ n ih =>
    intro l h
    by_cases hl : l.length ≤ 1
    · exact chunkRetain_small hl
    · rw [chunkRetain, dif_neg (by push_neg; exact ⟨one_ne_zero, by omega⟩)]
      rw [retainIf2_of_lt (by rw [List.length_take]; omega)]
      rw [List.nil_append]
      exact ih _ (by rw [List.length_drop]; omega)

theorem chunkRetain_length {B : Nat} (hB : 2 ≤ B) (l : List FPath) :
    (chunkRetain B l).length =
      l.length / B + (if 2 ≤ l.length % B then 1 else 0) := by
  suffices h : ∀ n (l : List FPath), l.length ≤ n → (chunkRetain B l).length =
      l.length / B + (if 2 ≤ l.length % B then 1 else 0) from h l.length l le_rfl
  intro n
  induction n with
  | zero =>
    intro l h
    have h0 : l.length = 0 := by omega
    rw [chunkRetain_small (by omega), h0]
    simp
  | succ n ih =>
    intro l h
    by_cases hl : l.length ≤ B
    · rw [chunkRetain, dif_pos (Or.inr hl)]
      by_cases h2 : 2 ≤ l.length
      · rw [retainIf2_of_le h2]
        rcases Nat.lt_or_ge l.length B with hlt | hge
        · rw [Nat.div_eq_of_lt hlt, Nat.mod_eq_of_lt hlt]
          simp [h2]
        · have heq : l.length = B := le_antisymm hl hge
          rw [heq, Nat.div_self (by omega), Nat.mod_self]
          simp
      · rw [retainIf2_of_lt (by omega)]
        have hlt : l.length < B := by omega
        rw [Nat.div_eq_of_lt hlt, Nat.mod_eq_of_lt hlt]
        simp [h2]
    · rw [chunkRetain, dif_neg (by push_neg; exact ⟨by omega, by omega⟩)]
      rw [retainIf2_of_le (by rw [List.length_take]; omega)]
      have ihd := ih (l.drop B) (by rw [List.length_drop]; omega)
      rw [List.length_drop] at ihd
      have hdiv : l.length / B = (l.length - B) / B + 1 :=
        Nat.div_eq_sub_div (by omega) (by omega)
      have hmod : l.length % B = (l.length - B) % B := Nat.mod_eq_sub_mod (by omega)
      rw [List.singleton_append, List.length_cons, ihd, hdiv, hmod]
      by_cases hr : 2 ≤ (l.length - B) % B <;> simp [hr]

theorem chunkRetain_flatten {B : Nat} (hB : 2 ≤ B) (l : List FPath) :
    (chunkRetain B l).flatten =
      if l.length % B = 1 then l.dropLast else l := by
  suffices h : ∀ n (l : List FPath), l.length ≤ n → (chunkRetain B l).flatten =
      if l.length % B = 1 then l.dropLast else l from h l.length l le_rfl
  intro n
  induction n with
  | zero =>
    intro l h
    have h0 : l = [] := List.length_eq_zero.mp (by omega)
    subst h0
    rw [chunkRetain_small (by simp)]
    simp
  | succ n ih =>
    intro l h
    by_cases hl : l.length ≤ B
    · rw [chunkRetain, dif_pos (Or.inr hl)]
      by_cases h2 : 2 ≤ l.length
      · rw [retainIf2_of_le h2]
        have hne : l.length % B ≠ 1 := by
          rcases Nat.lt_or_ge l.length B with hlt | hge
          · rw [Nat.mod_eq_of_lt hlt]; omega
          · have heq : l.length = B := le_antisymm hl hge
            rw [heq, Nat.mod_self]; omega
        rw [if_neg hne]
        simp
      · rw [retainIf2_of_lt (by omega)]
        rcases Nat.lt_or_ge l.length 1 with h0 | h1
        · have h0' : l = [] := List.length_eq_zero.mp (by omega)
          subst h0'
          simp
        · have h1' : l.length = 1 := by omega
          obtain ⟨a, rfl⟩ := List.length_eq_one.mp h1'
          rw [if_pos (by rw [h1', Nat.mod_eq_of_lt (by omega)])]
          simp
    · rw [chunkRetain, dif_neg (by push_neg; exact ⟨by omega, by omega⟩)]
      rw [retainIf2_of_le (by rw [List.length_take]; omega)]
      have ihd := ih (l.drop B) (by rw [List.length_drop]; omega)
      rw [List.singleton_append, List.flatten_cons, ihd, List.length_drop]
      have hmod : l.length % B = (l.length - B) % B := Nat.mod_eq_sub_mod (by omega)
      have hne : l.drop B ≠ [] := by
        intro heq
        have := congrArg List.length heq
        rw [List.length_drop] at this
        simp at this
        omega
      by_cases hr : (l.length - B) % B = 1
      · rw [if_pos hr, hmod, if_pos hr]
        have hfalse : (l.drop B).isEmpty = false := by
          cases hD : l.drop B with
          | nil => exact absurd hD hne
          | cons a t => rfl
        conv_rhs => rw [← List.take_append_drop B l]
        rw [List.dropLast_append, hfalse]
        simp
      · rw [if_neg hr, hmod, if_neg hr]
        exact List.take_append_drop B l

theorem chunkRetain_mem {B : Nat} (hB : 1 ≤ B) {l g : List FPath}
    (hg : g ∈ chunkRetain B l) :
    2 ≤ g.length ∧ g.length ≤ B ∧ g.Sublist l := by
  suffices h : ∀ n (l : List FPath), l.length ≤ n → ∀ g ∈ chunkRetain B l,
      2 ≤ g.length ∧ g.length ≤ B ∧ g.Sublist l from h l.length l le_rfl g hg
  intro n
  induction n with
  | zero =>
    intro l h g hg
    rw [chunkRetain_small (by omega)] at hg
    exact absurd hg (List.not_mem_nil g)
  | succ n ih =>
    intro l h g hg
    by_cases hl : l.length ≤ B
    · rw [chunkRetain, dif_pos (Or.inr hl)] at hg
      obtain ⟨rfl, h2⟩ := mem_retainIf2.mp hg
      exact ⟨h2, hl, List.Sublist.refl g⟩
    · rw [chunkRetain, dif_neg (by push_neg; exact ⟨by omega, by omega⟩)] at hg
      rcases List.mem_append.mp hg with hg | hg
      · obtain ⟨rfl, h2⟩ := mem_retainIf2.mp hg
        refine ⟨h2, ?_, List.take_sublist B l⟩
        rw [List.length_take]
        omega
      · obtain ⟨h2, hle, hsub⟩ :=
          ih (l.drop B) (by rw [List.length_drop]; omega) g hg
        exact ⟨h2, hle, hsub.trans (List.drop_sublist B l)⟩

theorem chunkRetain_eq_specGrouping {B : Nat} (hB : 2 ≤ B) (l : List FPath) :
    chunkRetain B l = specGrouping B l := by
  suffices h : ∀ n (l : List FPath), l.length ≤ n →
      chunkRetain B l = specGrouping B l from h l.length l le_rfl
  intro n
  induction n with
  | zero =>
    intro l h
    have h0 : l = [] := List.length_eq_zero.mp (by omega)
    subst h0
    rw [chunkRetain_small (by simp), specGrouping, dif_neg (by omega)]
    simp
  | succ n ih =>
    intro l h
    by_cases hl : l.length ≤ B
    · rw [chunkRetain, dif_pos (Or.inr hl), specGrouping, dif_neg (by omega),
        dif_pos hl, retainIf2]
    · rw [chunkRetain, dif_neg (by push_neg; exact ⟨by omega, by omega⟩),
        specGrouping, dif_neg (by omega), dif_neg hl]
      rw [retainIf2_of_le (by rw [List.length_take]; omega)]
      rw [List.singleton_append, ih (l.drop B) (by rw [List.length_drop]; omega)]

/-- C1: for every file list and every bracket_count B ≥ 2,
`identify_bracketed_sets` partitions the name-sorted input into
consecutive groups of size B whose final remainder group is retained iff
it has at least 2 members (the spec-side `specGrouping`); in particular
any 7 files with B = 3 yield exactly 2 retained groups and any 8 files
with B = 3 yield exactly 3. -/
theorem C1_bracket_grouping (files : List FPath) (B : Nat) (hB : 2 ≤ B) :
    identify_bracketed_sets files B = specGrouping B (pySort files) ∧
    (files.length = 7 → (identify_bracketed_sets files 3).length = 2) ∧
    (files.length = 8 → (identify_bracketed_sets files 3).length = 3) := by
  refine ⟨?_, ?_, ?_⟩
  · rw [identify_eq_chunkRetain, chunkRetain_eq_specGrouping hB]
  · intro h7
    rw [identify_eq_chunkRetain, chunkRetain_length (by omega), pySort_length, h7]
    decide
  · intro h8
    rw [identify_eq_chunkRetain, chunkRetain_length (by omega), pySort_length, h8]
    decide

theorem C1_bracket_grouping_witness :
    2 ≤ 3 ∧
    (identify_bracketed_sets
      [['g'], ['b'], ['a'], ['f'], ['c'], ['e'], ['d']] 3).length = 2 :=
  ⟨by decide,
    (C1_bracket_grouping [['g'], ['b'], ['a'], ['f'], ['c'], ['e'], ['d']] 3
      (by decide)).2.1 (by decide)⟩

/-- C2 counterexample: 8 files with bracket_count 3 satisfy
N mod B = 2 ∈ [2, B-1], yet `identify_bracketed_sets` returns 3 groups
while floor(N/B) = 2, refuting the claimed count floor(N/B). -/
theorem C2_counterexample :
    (8 : Nat) % 3 = 2 ∧ 2 ≤ (3 : Nat) - 1 ∧ (8 : Nat) / 3 = 2 ∧
    ([['a'], ['b'], ['c'], ['d'], ['e'], ['f'], ['g'], ['h']] :
      List FPath).length = 8 ∧
    (identify_bracketed_sets
      [['a'], ['b'], ['c'], ['d'], ['e'], ['f'], ['g'], ['h']] 3).length = 3 := by
  decide

/-- C2 amended: for bracket_count B ≥ 2, the number of retained groups is
floor(N/B) when N mod B ∈ {0, 1}, and floor(N/B) + 1 when
N mod B ∈ [2, B-1]. -/
theorem C2_group_count (files : List FPath) (B : Nat) (hB : 2 ≤ B) :
    (files.length % B ≤ 1 →
      (identify_bracketed_sets files B).length = files.length / B) ∧
    (2 ≤ files.length % B →
      (identify_bracketed_sets files B).length = files.length / B + 1) := by
  have hch := chunkRetain_length hB (pySort files)
  rw [← identify_eq_chunkRetain, pySort_length] at hch
  constructor
  · intro h1
    rw [hch, if_neg (by omega)]
    rfl
  · intro h2
    rw [hch, if_pos h2]

theorem C2_group_count_witness :
    2 ≤ 3 ∧ 2 ≤ ([['a'], ['b'], ['c'], ['d'], ['e'], ['f'], ['g'], ['h']] :
      List FPath).length % 3 ∧
    (identify_bracketed_sets
      [['a'], ['b'], ['c'], ['d'], ['e'], ['f'], ['g'], ['h']] 3).length =
      ([['a'], ['b'], ['c'], ['d'], ['e'], ['f'], ['g'], ['h']] :
        List FPath).length / 3 + 1 :=
  ⟨by decide, by decide,
    (C2_group_count [['a'], ['b'], ['c'], ['d'], ['e'], ['f'], ['g'], ['h']] 3
      (by decide)).2 (by decide)⟩

/-- C6: `identify_bracketed_sets` returns [] on empty input, on input with
fewer than 2 files, and whenever bracket_count = 1 (every singleton group
is discarded), for every input list. -/
theorem C6_degenerate_inputs (files : List FPath) (B : Nat) :
    identify_bracketed_sets [] B = [] ∧
    (files.length < 2 → identify_bracketed_sets files B = []) ∧
    identify_bracketed_sets files 1 = [] := by
  refine ⟨rfl, ?_, ?_⟩
  · intro h
    rw [identify_eq_chunkRetain]
    exact chunkRetain_small (by rw [pySort_length]; omega)
  · rw [identify_eq_chunkRetain]
    exact chunkRetain_one _

theorem C6_degenerate_inputs_witness :
    ([['a']] : List FPath).length < 2 ∧ identify_bracketed_sets [['a']] 5 = [] :=
  ⟨by decide, (C6_degenerate_inputs [['a']] 5).2.1 (by decide)⟩

/-- C7 counterexample: with bracket_count = 0 (an int value the CLI
accepts), the whole input becomes one retained group of size 2, which
exceeds the configured bracket_count; so the bound "≤ configured
bracket_count" fails for that bracket_count. -/
theorem C7_counterexample :
    identify_bracketed_sets [['a'], ['b']] 0 = [[['a'], ['b']]] ∧
    ¬(∀ g ∈ identify_bracketed_sets [['a'], ['b']] 0, g.length ≤ 0) := by
  decide

/-- C7 amended: for every input list and every bracket_count ≥ 1, each
retained group has at least 2 and at most bracket_count members, and its
files appear in file-name sort order. -/
theorem C7_group_invariants (files : List FPath) (B : Nat) (hB : 1 ≤ B) :
    ∀ g ∈ identify_bracketed_sets files B,
      2 ≤ g.length ∧ g.length ≤ B ∧ SortedLe g := by
  intro g hg
  rw [identify_eq_chunkRetain] at hg
  obtain ⟨h2, hle, hsub⟩ := chunkRetain_mem hB hg
  exact ⟨h2, hle, List.Pairwise.sublist hsub (pySort_sorted files)⟩

theorem C7_group_invariants_witness :
    1 ≤ 3 ∧ (2 ≤ ([['a'], ['b'], ['c']] : List FPath).length ∧
      ([['a'], ['b'], ['c']] : List FPath).length ≤ 3 ∧
      SortedLe [['a'], ['b'], ['c']]) :=
  ⟨by decide,
    C7_group_invariants [['b'], ['a'], ['c']] 3 (by decide)
      [['a'], ['b'], ['c']] (by decide)⟩

/-- C9 counterexample: on an input with duplicate paths the retained
groups are not pairwise disjoint: the path "a" appears in both retained
groups. -/
theorem C9_counterexample :
    identify_bracketed_sets [['a'], ['a'], ['a'], ['a']] 2 =
      [[['a'], ['a']], [['a'], ['a']]] ∧
    ['a'] ∈ (identify_bracketed_sets [['a'], ['a'], ['a'], ['a']] 2).getD 0 [] ∧
    ['a'] ∈ (identify_bracketed_sets [['a'], ['a'], ['a'], ['a']] 2).getD 1 [] := by
  decide

/-- C9 amended: for bracket_count B ≥ 2 and duplicate-free input, the
retained groups are pairwise disjoint consecutive slices: no path lies in
two groups, and their concatenation equals the name-sorted input, minus
exactly its last element when N mod B = 1 (the discarded final
singleton). -/
theorem C9_partition (files : List FPath) (B : Nat) (hB : 2 ≤ B)
    (hnd : files.Nodup) :
    (identify_bracketed_sets files B).Pairwise List.Disjoint ∧
    (identify_bracketed_sets files B).flatten =
      (if files.length % B = 1 then (pySort files).dropLast else pySort files) := by
  have hfl := chunkRetain_flatten hB (pySort files)
  rw [← identify_eq_chunkRetain, pySort_length] at hfl
  refine ⟨?_, hfl⟩
  have hndp : (pySort files).Nodup := ((pySort_perm files).nodup_iff).mpr hnd
  have hsub : (identify_bracketed_sets files B).flatten.Sublist (pySort files) := by
    rw [hfl]
    by_cases hc : files.length % B = 1
    · rw [if_pos hc]
      exact List.dropLast_sublist _
    · rw [if_neg hc]
  exact (List.nodup_flatten.mp (List.Nodup.sublist hsub hndp)).2

theorem C9_partition_witness :
    2 ≤ 2 ∧ ([['b'], ['a'], ['c']] : List FPath).Nodup ∧
    (identify_bracketed_sets [['b'], ['a'], ['c']] 2).flatten =
      (if ([['b'], ['a'], ['c']] : List FPath).length % 2 = 1 then
        (pySort [['b'], ['a'], ['c']]).dropLast else pySort [['b'], ['a'], ['c']]) :=
  ⟨by decide, by decide, (C9_partition [['b'], ['a'], ['c']] 2 (by decide) (by decide)).2⟩

/-- C10: `identify_bracketed_sets` mutates its argument: the in-place
`image_files.sort()` leaves the caller's list as the sorted permutation
of the original after the call, while the function also returns the
grouping result. -/
theorem C10_in_place_sort (files : List FPath) (B : Nat) :
    (identify_bracketed_setsState files B).1.Perm files ∧
    SortedLe (identify_bracketed_setsState files B).1 ∧
    (identify_bracketed_setsState files B).2 = identify_bracketed_sets files B :=
  ⟨pySort_perm files, pySort_sorted files, rfl⟩

theorem batch_size_eq : batch_size = 10 := rfl

theorem pyRange_length (start stop step : Nat) :
    (pyRange start stop step).length = (stop - start + (step - 1)) / step := by
  simp [pyRange]

theorem pyRange_getD {start stop step i : Nat}
    (h : i < (pyRange start stop step).length) :
    (pyRange start stop step).getD i 0 = start + step * i := by
  simp only [pyRange, List.length_map, List.length_range] at h
  simp [pyRange, List.getD_eq_getElem, List.getElem_map, List.getElem_range, h]

theorem batchSlices_length (files : List FPath) :
    (batchSlices files).length = (files.length + batch_size - 1) / batch_size := by
  simp only [batchSlices, List.length_map, pyRange_length, batch_size_eq]
  omega

theorem batchSlices_getD (files : List FPath) (i : Nat)
    (h : i < (batchSlices files).length) :
    (batchSlices files).getD i [] =
      (files.drop (i * batch_size)).take batch_size := by
  simp only [batchSlices, List.length_map] at h ⊢
  rw [List.getD_eq_getElem _ _ (by simpa using h), List.getElem_map]
  have hi := pyRange_getD (show i < (pyRange 0 files.length batch_size).length from h)
  rw [List.getD_eq_getElem _ _ h] at hi
  rw [hi, Nat.zero_add, Nat.mul_comm]

theorem slicesFlattenAux (files : List FPath) :
    ∀ (c start : Nat), files.length ≤ start + batch_size * c →
    ((List.range c).map
      (fun k => (files.drop (start + batch_size * k)).take batch_size)).flatten =
      files.drop start := by
  intro c
  induction c with
  | zero =>
    intro start h
    simp only [List.range_zero, List.map_nil, List.flatten_nil]
    symm
    exact List.drop_eq_nil_of_le (by simpa using h)
  | succ c ih =>
    intro start h
    rw [List.range_succ_eq_map]
    simp only [List.map_cons, List.map_map, List.flatten_cons]
    have htail : ((List.range c).map
        ((fun k => (files.drop (start + batch_size * k)).take batch_size) ∘ Nat.succ)) =
        (List.range c).map
          (fun k => (files.drop ((start + batch_size) + batch_size * k)).take batch_size) := by
      apply List.map_congr_left
      intro a _
      simp only [Function.comp]
      congr 2
      rw [Nat.mul_succ]
      omega
    have hmul : batch_size * (c + 1) = batch_size * c + batch_size := by ring
    rw [htail, ih (start + batch_size) (by omega)]
    rw [Nat.mul_zero, Nat.add_zero]
    rw [← List.drop_drop batch_size start files]
    exact List.take_append_drop batch_size (files.drop start)

theorem map_zip_self_map {α β γ : Type} (l : List α) (f : α → β) (h : α × β → γ) :
    (l.zip (l.map f)).map h = l.map (fun i => h (i, f i)) := by
  induction l with
  | nil => rfl
  | cons a t ih => simp [ih]

/-- C3: the batch loop of `batch_edit_photos` (batch_size 10) submits
exactly ⌈N / batch_size⌉ batches; batch i is exactly the input slice
starting at i * batch_size of length min(batch_size, N - i * batch_size),
so every batch except possibly the last has size batch_size, no file is
dropped and the concatenation of the batches is the input in order; the
success counter of `batch_edit_photos` is computed over exactly these
(start index, slice) pairs. -/
theorem C3_batch_partition (input_files : List FPath) :
    (batchSlices input_files).length =
      (input_files.length + batch_size - 1) / batch_size ∧
    (∀ i, i < (batchSlices input_files).length →
      (batchSlices input_files).getD i [] =
        (input_files.drop (i * batch_size)).take batch_size ∧
      ((batchSlices input_files).getD i []).length =
        min batch_size (input_files.length - i * batch_size)) ∧
    (∀ i, i + 1 < (batchSlices input_files).length →
      ((batchSlices input_files).getD i []).length = batch_size) ∧
    (batchSlices input_files).flatten = input_files ∧
    (∀ (output_dir : FPath) (script_valid : Bool) (exit_code : Nat → Option Int)
        (fs_exists : FPath → Bool),
      (batch_edit_photos output_dir input_files script_valid exit_code fs_exists).1 =
        (((pyRange 0 input_files.length batch_size).zip (batchSlices input_files)).map
          (fun p => if run_photoshop_script_ok script_valid (exit_code p.1) then
            (p.2.filter (fun file =>
              fs_exists (pathJoin output_dir (basename file)))).length
          else 0)).sum) := by
  refine ⟨batchSlices_length input_files, ?_, ?_, ?_, ?_⟩
  · intro i hi
    refine ⟨batchSlices_getD _ _ hi, ?_⟩
    rw [batchSlices_getD _ _ hi, List.length_take, List.length_drop]
  · intro i hi
    rw [batchSlices_getD _ _ (by omega), List.length_take, List.length_drop]
    have hlen := batchSlices_length input_files
    rw [hlen] at hi
    simp only [batch_size_eq] at hi ⊢
    omega
  · have hc := slicesFlattenAux input_files
      ((input_files.length - 0 + (batch_size - 1)) / batch_size) 0
      (by simp only [batch_size_eq]; omega)
    rw [batchSlices, pyRange, List.map_map]
    exact hc.trans (List.drop_zero input_files)
  · intro output_dir script_valid exit_code fs_exists
    rw [batchSlices, map_zip_self_map]
    rfl

theorem C3_batch_partition_witness :
    ((batchSlices [['a'], ['b'], ['c']]).getD 0 [] =
      ([['a'], ['b'], ['c']] : List FPath) ∧
      (batchSlices [['a'], ['b'], ['c']]).flatten = [['a'], ['b'], ['c']]) := by
  refine ⟨?_, (C3_batch_partition [['a'], ['b'], ['c']]).2.2.2.1⟩
  have h := ((C3_batch_partition [['a'], ['b'], ['c']]).2.1 0 (by decide)).1
  rw [h]
  decide

theorem sum_indicator_eq_countP {α : Type} (P : α → Bool) (l : List α) :
    (l.map (fun x => if P x then 1 else 0)).sum = l.countP P := by
  induction l with
  | nil => rfl
  | cons a t ih =>
    by_cases h : P a = true <;>
      simp [List.countP_cons, ih, h, Nat.add_comm]

theorem if_filter_length_eq_countP (b : Bool) (P : FPath → Bool) (l : List FPath) :
    (if b then (l.filter P).length else 0) = l.countP (fun x => b && P x) := by
  cases b
  · simp
  · simp [List.countP_eq_length_filter]

/-- C5 counterexample: with exactly one bracketed set, an invocation that
fails (exit code 1) while the expected output file exists (the existence
oracle is constantly true) yields success_count 0 although the number of
units whose expected output artifact exists is 1; so success_count does
not count exactly the units whose expected output exists. -/
theorem C5_counterexample :
    (merge_hdr_photos ['o'] [[['a'], ['b']]] true (fun _ => some 1)
      (fun _ => true)).1 = 0 ∧
    (merge_hdr_photos ['o'] [[['a'], ['b']]] true (fun _ => some 1)
      (fun _ => true)).2 = 1 ∧
    (fun _ => true : FPath → Bool) (hdrOutputFile ['o'] [['a'], ['b']]) = true := by
  decide

/-- C5 amended: success_count counts exactly the units whose invocation
returned success AND whose expected output artifact exists afterwards —
per set in `merge_hdr_photos` (a set whose process exits 0 but whose
expected output file is absent is not counted), and per file within
invocation-successful batches in `batch_edit_photos`. -/
theorem C5_success_counting (output_dir : FPath)
    (bracketed_sets : List (List FPath)) (input_files : List FPath)
    (script_valid : Bool) (exit_code : Nat → Option Int)
    (fs_exists : FPath → Bool) :
    (merge_hdr_photos output_dir bracketed_sets script_valid exit_code
        fs_exists).1 =
      bracketed_sets.enum.countP (fun p =>
        run_photoshop_script_ok script_valid (exit_code p.1) &&
        fs_exists (hdrOutputFile output_dir p.2)) ∧
    (batch_edit_photos output_dir input_files script_valid exit_code
        fs_exists).1 =
      ((pyRange 0 input_files.length batch_size).map (fun i =>
        ((input_files.drop i).take batch_size).countP (fun file =>
          run_photoshop_script_ok script_valid (exit_code i) &&
          fs_exists (pathJoin output_dir (basename file))))).sum := by
  constructor
  · exact sum_indicator_eq_countP _ _
  · have hdef : (batch_edit_photos output_dir input_files script_valid exit_code
        fs_exists).1 =
      ((pyRange 0 input_files.length batch_size).map (fun i =>
        if run_photoshop_script_ok script_valid (exit_code i) then
          (((input_files.drop i).take batch_size).filter (fun file =>
            fs_exists (pathJoin output_dir (basename file)))).length
        else 0)).sum := rfl
    rw [hdef]
    congr 1
    apply List.map_congr_left
    intro i _
    exact if_filter_length_eq_countP _ _ _

theorem mem_pySort {p : FPath} {l : List FPath} : p ∈ pySort l ↔ p ∈ l :=
  (pySort_perm l).mem_iff

theorem strLower_append (a b : FPath) :
    strLower (a ++ b) = strLower a ++ strLower b :=
  List.map_append _ _ _

theorem endswith_eq_true_iff {s ext : FPath} :
    endswith s ext = true ↔ ∃ t, s = t ++ ext := by
  rw [endswith, beq_iff_eq]
  constructor
  · intro h
    refine ⟨s.take (s.length - ext.length), ?_⟩
    conv_lhs => rw [← List.take_append_drop (s.length - ext.length) s]
    congr 1
    exact h.symm
  · rintro ⟨t, rfl⟩
    rw [List.length_append, Nat.add_sub_cancel, List.drop_left]

theorem pathJoin_suffix (a b : FPath) : ∃ t, pathJoin a b = t ++ b := by
  rw [pathJoin]
  split
  · exact ⟨[], rfl⟩
  · split
    · exact ⟨[], rfl⟩
    · split
      · exact ⟨a, rfl⟩
      · exact ⟨a ++ ['/'], by simp⟩

theorem globMatch_endswith {name ext : FPath} (h : globMatch name ext = true) :
    endswith name ext = true := by
  cases name with
  | nil => simp [globMatch] at h
  | cons c cs =>
    simp only [globMatch, Bool.and_eq_true] at h
    exact h.2

theorem supported_lower : ∀ ext ∈ SUPPORTED_IMAGE_FORMATS,
    strLower ext = ext ∧ strLower (strUpper ext) = ext := by decide

/-- C4: for every directory state, `get_image_files` returns a sorted
list containing only paths whose extension, compared case-insensitively,
is one of the eight supported formats; with recursive = false every
returned path is `directory` joined with one of the root's direct
children. -/
theorem C4_file_discovery (listing : DirListing) (directory : FPath)
    (recursive : Bool) :
    SortedLe (get_image_files listing directory recursive) ∧
    (∀ p ∈ get_image_files listing directory recursive,
      ∃ ext ∈ SUPPORTED_IMAGE_FORMATS, ∃ t, strLower p = t ++ ext) ∧
    (recursive = false → ∀ p ∈ get_image_files listing directory recursive,
      ∃ e ∈ listing.entries, p = pathJoin directory e) := by
  refine ⟨?_, ?_, ?_⟩
  · rw [get_image_files]
    split <;> exact pySort_sorted _
  · intro p hp
    rw [get_image_files] at hp
    split at hp
    · rw [mem_pySort] at hp
      obtain ⟨rf, hrf, hmem⟩ := List.mem_flatMap.mp hp
      obtain ⟨file, hfile, rfl⟩ := List.mem_map.mp hmem
      obtain ⟨hfmem, hq⟩ := List.mem_filter.mp hfile
      obtain ⟨ext, hext, hends⟩ := List.any_eq_true.mp hq
      obtain ⟨u, hu⟩ := endswith_eq_true_iff.mp hends
      obtain ⟨t, ht⟩ := pathJoin_suffix rf.1 file
      refine ⟨ext, hext, strLower t ++ u, ?_⟩
      rw [ht, strLower_append, hu, ← List.append_assoc]
    · rw [mem_pySort] at hp
      obtain ⟨ext, hext, hmem⟩ := List.mem_flatMap.mp hp
      rcases List.mem_append.mp hmem with hm | hm
      · obtain ⟨e, hef, rfl⟩ := List.mem_map.mp hm
        obtain ⟨hee, hgm⟩ := List.mem_filter.mp hef
        obtain ⟨u, hu⟩ := endswith_eq_true_iff.mp (globMatch_endswith hgm)
        obtain ⟨t, ht⟩ := pathJoin_suffix directory e
        refine ⟨ext, hext, strLower t ++ strLower u, ?_⟩
        rw [ht, hu, strLower_append, strLower_append,
          (supported_lower ext hext).1, ← List.append_assoc]
      · obtain ⟨e, hef, rfl⟩ := List.mem_map.mp hm
        obtain ⟨hee, hgm⟩ := List.mem_filter.mp hef
        obtain ⟨u, hu⟩ := endswith_eq_true_iff.mp (globMatch_endswith hgm)
        obtain ⟨t, ht⟩ := pathJoin_suffix directory e
        refine ⟨ext, hext, strLower t ++ strLower u, ?_⟩
        rw [ht, hu, strLower_append, strLower_append,
          (supported_lower ext hext).2, ← List.append_assoc]
  · intro hrec p hp
    subst hrec
    rw [get_image_files, if_neg (by simp)] at hp
    rw [mem_pySort] at hp
    obtain ⟨ext, hext, hmem⟩ := List.mem_flatMap.mp hp
    rcases List.mem_append.mp hmem with hm | hm
    · obtain ⟨e, hef, rfl⟩ := List.mem_map.mp hm
      exact ⟨e, (List.mem_filter.mp hef).1, rfl⟩
    · obtain ⟨e, hef, rfl⟩ := List.mem_map.mp hm
      exact ⟨e, (List.mem_filter.mp hef).1, rfl⟩

theorem C4_file_discovery_witness :
    (∃ ext ∈ SUPPORTED_IMAGE_FORMATS, ∃ t,
      strLower (pathJoin "d".data "x.jpg".data) = t ++ ext) ∧
    (∃ e ∈ (DirListing.mk ["x.jpg".data] []).entries,
      pathJoin "d".data "x.jpg".data = pathJoin "d".data e) :=
  ⟨(C4_file_discovery (DirListing.mk ["x.jpg".data] []) "d".data false).2.1
      (pathJoin "d".data "x.jpg".data) (by decide),
   (C4_file_discovery (DirListing.mk ["x.jpg".data] []) "d".data false).2.2 rfl
      (pathJoin "d".data "x.jpg".data) (by decide)⟩

theorem flatMap_perm_congr {α β : Type} (l : List α) {f g : α → List β}
    (h : ∀ a ∈ l, (f a).Perm (g a)) : (l.flatMap f).Perm (l.flatMap g) := by
  induction l with
  | nil => exact List.Perm.refl _
  | cons a t ih =>
    rw [List.flatMap_cons, List.flatMap_cons]
    exact (h a (List.mem_cons_self a t)).append
      (ih (fun b hb => h b (List.mem_cons_of_mem a hb)))

theorem walk_collect_eq (q : FPath → Bool) (walk : List (FPath × List FPath)) :
    walk.flatMap (fun rf => (rf.2.filter q).map (fun f => pathJoin rf.1 f)) =
      ((walkPairs walk).filter (fun pr => q pr.2)).map
        (fun pr => pathJoin pr.1 pr.2) := by
  induction walk with
  | nil => rfl
  | cons rf rest ih =>
    rw [walkPairs, List.flatMap_cons, List.flatMap_cons, ← walkPairs]
    rw [List.filter_append, List.map_append, ih]
    congr 1
    rw [List.filter_map, List.map_map]
    rfl

/-- C8: `get_image_files` is deterministic with respect to an unchanged
directory state: its output depends only on the set of direct children
and the set of walked (root, filename) pairs, not on the enumeration
order the OS happens to produce, so two runs over the same contents give
identical ordered sequences. -/
theorem C8_discovery_deterministic (directory : FPath) (recursive : Bool)
    (l1 l2 : DirListing) (he : l1.entries.Perm l2.entries)
    (hw : (walkPairs l1.walk).Perm (walkPairs l2.walk)) :
    get_image_files l1 directory recursive =
      get_image_files l2 directory recursive := by
  rw [get_image_files, get_image_files]
  split
  · apply pySort_eq_of_perm
    rw [walk_collect_eq, walk_collect_eq]
    exact (hw.filter _).map _
  · apply pySort_eq_of_perm
    apply flatMap_perm_congr
    intro ext _
    exact ((he.filter _).map _).append ((he.filter _).map _)

theorem C8_discovery_deterministic_witness :
    ((DirListing.mk ["b.jpg".data, "a.jpg".data]
        [("r".data, ["x.tif".data, "y.nef".data])]).entries.Perm
      (DirListing.mk ["a.jpg".data, "b.jpg".data]
        [("r".data, ["y.nef".data, "x.tif".data])]).entries) ∧
    ((walkPairs (DirListing.mk ["b.jpg".data, "a.jpg".data]
        [("r".data, ["x.tif".data, "y.nef".data])]).walk).Perm
      (walkPairs (DirListing.mk ["a.jpg".data, "b.jpg".data]
        [("r".data, ["y.nef".data, "x.tif".data])]).walk)) ∧
    get_image_files (DirListing.mk ["b.jpg".data, "a.jpg".data]
        [("r".data, ["x.tif".data, "y.nef".data])]) "d".data true =
      get_image_files (DirListing.mk ["a.jpg".data, "b.jpg".data]
        [("r".data, ["y.nef".data, "x.tif".data])]) "d".data true :=
  ⟨by decide, by decide,
    C8_discovery_deterministic "d".data true _ _ (by decide) (by decide)⟩
